import Mathlib

/-!
Shallow embedding of the wordpiece-alignment and CoNLL-scorer core of
phueb/BabyBertSRL (files `babybertsrl/word_pieces.py` and
`bert_recipes/eval.py`).  Python strings are modelled as `List Char`,
Python lists as Lean lists, the wordpiece tokenizer as an explicit
function argument, and fallible Python code as `Option`/`Except`.
-/

namespace BabyBertSRL

/-- A Python string, modelled as its list of characters. -/
abbrev Str := List Char

/-- The literal `'[CLS]'`. -/
def CLS : Str := '[' :: 'C' :: 'L' :: 'S' :: ']' :: []

/-- The literal `'[SEP]'`. -/
def SEP : Str := '[' :: 'S' :: 'E' :: 'P' :: ']' :: []

/-- The literal `'O'` (the outside BIO tag). -/
def Otag : Str := 'O' :: []

/-- `s.startswith('##')`. -/
def startsHH : Str → Bool
  | '#' :: '#' :: _ => true
  | _ => false

/-- `s.startswith(c)` for a single-character prefix `c`. -/
def startsWithChar (c : Char) : Str → Bool
  | [] => false
  | a :: _ => a = c

/-! ## `word_pieces.convert_wordpieces_to_words` -/

/-- `word_pieces.convert_sub_text_to_word` (inner helper of
`convert_wordpieces_to_words`): `''.join(pieces)`, or, when
`remove_garbage` is set, `''.join(p.lstrip('##') for p in pieces)`.
Python's `lstrip('##')` strips leading characters drawn from the set
`{'#'}`. The caller in the source always uses the default
`remove_garbage=False`. -/
def convert_sub_text_to_word (pieces : List Str) (remove_garbage : Bool := false) : Str :=
  if remove_garbage then (pieces.map (fun p => p.dropWhile (fun c => c = '#'))).flatten
  else pieces.flatten

/-- The loop of `word_pieces.convert_wordpieces_to_words`, recursing over the
remaining pieces.  `isFirst` is true exactly when the current piece sits at
Python index `n = 0`; the Python test `n == len(wordpieces) - 1` is
`rest = []` here. -/
def reconAux : Bool → List Str → List Str
  | _, [] => []
  | isFirst, wp :: rest =>
    if wp = CLS ∧ isFirst = true then reconAux false rest
    else if wp = SEP ∧ rest = [] then reconAux false rest
    else if startsHH wp = true then reconAux false rest
    else convert_sub_text_to_word (wp :: rest.takeWhile startsHH) :: reconAux false rest

/-- `word_pieces.convert_wordpieces_to_words` (the `configs.Wordpieces.verbose`
branch only prints and is omitted). -/
def convert_wordpieces_to_words (wordpieces : List Str) : List Str :=
  reconAux true wordpieces

/-! ## `word_pieces.convert_words_to_wordpieces` -/

/-- The loop of `word_pieces.convert_words_to_wordpieces`: walks the tokens
carrying `cumulative`, returning
`(word_piece_tokens, end_offsets, start_offsets)`. -/
def cwtwAux (tok : Str → List Str) : Nat → List Str → List Str × List Nat × List Nat
  | _, [] => ([], [], [])
  | cumulative, token :: rest =>
    let word_pieces := tok token
    let r := cwtwAux tok (cumulative + word_pieces.length) rest
    (word_pieces ++ r.1, (cumulative + word_pieces.length) :: r.2.1, (cumulative + 1) :: r.2.2)

/-- `word_pieces.convert_words_to_wordpieces`: returns
`(wordpieces, end_offsets, start_offsets)` with `'[CLS]'` prepended and
`'[SEP]'` appended to the pieces.  The wordpiece tokenizer's `tokenize`
method is the explicit function `tok`. -/
def convert_words_to_wordpieces (tokens : List Str) (tok : Str → List Str) :
    List Str × List Nat × List Nat :=
  let r := cwtwAux tok 0 tokens
  (CLS :: r.1 ++ [SEP], r.2.1, r.2.2)

/-- A concrete wordpiece tokenizer used to instantiate theorems: it splits
`'annotate'` into `['anno', '##tate']` and maps every other word to itself
as a single piece. -/
def tokEx (w : Str) : List Str :=
  if w = "annotate".data then ["anno".data, "##tate".data] else [w]

/-- The piece-sequence shape promised by the spec's data model: a word maps
to a non-empty piece sequence whose first piece is not a continuation piece
and whose later pieces are continuation (`'##'`-prefixed) pieces. -/
def goodPieces (ps : List Str) : Prop :=
  ps ≠ [] ∧ (∀ h ∈ ps.head?, startsHH h = false) ∧ ∀ p ∈ ps.tail, startsHH p = true

instance (ps : List Str) : Decidable (goodPieces ps) :=
  inferInstanceAs (Decidable (ps ≠ [] ∧ (∀ h ∈ ps.head?, startsHH h = false) ∧
    ∀ p ∈ ps.tail, startsHH p = true))

/-! ## `word_pieces.convert_bio_tags_to_wordpieces` -/

/-- The second component of `tag.split('-', 1)`: everything after the first
`'-'`.  (When `tag` contains no `'-'`, Python's unpacking
`_, label = tag.split('-', 1)` raises `ValueError`; that path is reachable
only for a `'B'`-tag without a dash on a word of two or more pieces, which
no claim exercises; here it yields `[]`.) -/
def splitAfterDash (tag : Str) : Str :=
  (tag.dropWhile (fun c => c ≠ '-')).drop 1

/-- The inner `while j < offset` loop of
`word_pieces.convert_bio_tags_to_wordpieces`, unrolled on the number
`offset - j` of remaining iterations, with the mutable `is_start` flag as
an argument.  A tag that is not `'O'` and starts with neither `'I'` nor
`'B'` appends nothing (but the loop still advances), exactly as in the
source. -/
def cbtwPieces (tag : Str) : Nat → Bool → List Str
  | 0, _ => []
  | n + 1, is_start =>
    if tag = Otag then Otag :: cbtwPieces tag n is_start
    else if startsWithChar 'I' tag = true then tag :: cbtwPieces tag n is_start
    else if is_start = true ∧ startsWithChar 'B' tag = true then tag :: cbtwPieces tag n false
    else if startsWithChar 'B' tag = true then
      ('I' :: '-' :: splitAfterDash tag) :: cbtwPieces tag n is_start
    else cbtwPieces tag n is_start

/-- The outer `for i, offset in enumerate(offsets)` loop of
`convert_bio_tags_to_wordpieces`, over the `(tags[i], offset)` pairs,
carrying `j`.  After the inner while loop Python's `j` equals
`max j offset` (it never decreases), which is what the recursion passes
on. -/
def cbtwAux : Nat → List (Str × Nat) → List Str
  | _, [] => []
  | j, (tag, offset) :: rest => cbtwPieces tag (offset - j) true ++ cbtwAux (max j offset) rest

/-- `word_pieces.convert_bio_tags_to_wordpieces`.  Python indexes `tags[i]`
while iterating over `offsets`; the zip agrees with that whenever
`len(tags) >= len(offsets)` (for shorter `tags` Python raises `IndexError`,
a path no claim exercises). -/
def convert_bio_tags_to_wordpieces (tags : List Str) (offsets : List Nat) : List Str :=
  Otag :: cbtwAux 0 (tags.zip offsets) ++ [Otag]

/-- The tag `'B-' + l`. -/
def Btag (l : Str) : Str := 'B' :: '-' :: l

/-- The tag `'I-' + l`. -/
def Itag (l : Str) : Str := 'I' :: '-' :: l

/-- A tag of one of the three word-level BIO shapes: `'O'`, `'B-<label>'`
or `'I-<label>'` (stated via `take` so that it is decidable). -/
def BIOShaped (tag : Str) : Prop :=
  tag = Otag ∨ tag.take 2 = ['B', '-'] ∨ tag.take 2 = ['I', '-']

instance (tag : Str) : Decidable (BIOShaped tag) :=
  inferInstanceAs (Decidable (tag = Otag ∨ tag.take 2 = ['B', '-'] ∨ tag.take 2 = ['I', '-']))

/-- The tag carries the `'I-'` prefix. -/
def isItag (tag : Str) : Prop := tag.take 2 = ['I', '-']

instance (tag : Str) : Decidable (isItag tag) :=
  inferInstanceAs (Decidable (tag.take 2 = ['I', '-']))

/-- The tags a single word contributes, as the claims describe them:
`'O'` on every piece for tag `'O'`; `'I-<label>'` unchanged on every piece;
`'B-<label>'` on the first piece and `'I-<label>'` on every later piece of
the same word. -/
def claimBlock (tag : Str) (k : Nat) : List Str :=
  if tag = Otag then List.replicate k Otag
  else if startsWithChar 'I' tag = true then List.replicate k tag
  else if k = 0 then []
  else tag :: List.replicate (k - 1) ('I' :: '-' :: tag.drop 2)

/-- Per-word assembly of the claim-side projected tags: word `i` occupies
`offsets[i] - offsets[i-1]` pieces. -/
def claimProjection : Nat → List (Str × Nat) → List Str
  | _, [] => []
  | prev, (tag, off) :: rest => claimBlock tag (off - prev) ++ claimProjection off rest

/-- Local BIO well-formedness step: whenever `cur` is `'I-<label>'`, its
immediate predecessor `prev` carries the same label as a `'B-'` or `'I-'`
tag.  Chaining this relation is equivalent to the spec's phrasing that
every `'I-<label>'` is preceded, possibly transitively through other
`'I-<label>'`, by a `'B-<label>'` of the same label. -/
def okPair (prev cur : Str) : Prop :=
  isItag cur → prev = Btag (cur.drop 2) ∨ prev = Itag (cur.drop 2)

instance (prev cur : Str) : Decidable (okPair prev cur) :=
  inferInstanceAs (Decidable (isItag cur → prev = Btag (cur.drop 2) ∨ prev = Itag (cur.drop 2)))

/-- A well-formed BIO sequence: it does not open with an `'I-<label>'`
tag, and consecutive tags satisfy `okPair`. -/
def wfBio (tags : List Str) : Prop :=
  (∀ h ∈ tags.head?, ¬ isItag h) ∧ List.Chain' okPair tags

instance (tags : List Str) : Decidable (wfBio tags) :=
  inferInstanceAs (Decidable ((∀ h ∈ tags.head?, ¬ isItag h) ∧ List.Chain' okPair tags))

/-! ## `bert_recipes.eval.convert_bio_tags_to_conll_format` -/

/-- `s[0]` on a Python string: `none` models the `IndexError` on the empty
string. -/
def charAt0 : Str → Option Char
  | [] => none
  | c :: _ => some c

/-- The body of the `for i, label in enumerate(labels)` loop of
`convert_bio_tags_to_conll_format` at index `i` (with `L = len(labels)`),
following Python's left-to-right short-circuit evaluation: `label[0]` is
read before the `i == 0` test (so an empty non-`'O'` label raises), and
`labels[i+1][0]` is read only when `i != L - 1`.  `labels[i-1]` is read
only when `i != 0`, so no negative index arises. -/
def conllOne (labels : List Str) (L i : Nat) : Option Str :=
  let label := labels.getD i []
  if label = Otag then some ['*']
  else
    match charAt0 label with
    | none => none
    | some c0 =>
      let new1 : Str :=
        if c0 = 'B' ∨ i = 0 ∨ label.drop 1 ≠ (labels.getD (i - 1) []).drop 1 then
          '(' :: label.drop 2 ++ ['*']
        else ['*']
      if i = L - 1 then some (new1 ++ [')'])
      else
        match charAt0 (labels.getD (i + 1) []) with
        | none => none
        | some c1 =>
          if c1 = 'B' ∨ label.drop 1 ≠ (labels.getD (i + 1) []).drop 1 then
            some (new1 ++ [')'])
          else some new1

/-- Option-valued map: `some` of the image when `f` succeeds everywhere,
`none` as soon as some element fails (as a raised exception would). -/
def optionMap (f : α → Option β) : List α → Option (List β)
  | [] => some []
  | a :: l =>
    match f a, optionMap f l with
    | some b, some bs => some (b :: bs)
    | _, _ => none

/-- `bert_recipes.eval.convert_bio_tags_to_conll_format`; `none` models a
raised `IndexError` (empty non-`'O'` label read by `label[0]` or
`labels[i+1][0]`). -/
def convert_bio_tags_to_conll_format (labels : List Str) : Option (List Str) :=
  optionMap (conllOne labels labels.length) (List.range labels.length)

/-- The bracketing at one position exactly as claim C7 words it: the
start-of-span and end-of-span comparisons use the label portion after the
2-character prefix (`tags[i][2:]`). -/
def conllClaimAt (tags : List Str) (i : Nat) : Str :=
  let tag := tags.getD i []
  if tag = Otag then ['*']
  else
    let new1 : Str :=
      if charAt0 tag = some 'B' ∨ i = 0 ∨ tag.drop 2 ≠ (tags.getD (i - 1) []).drop 2 then
        '(' :: tag.drop 2 ++ ['*']
      else ['*']
    if i = tags.length - 1 ∨ charAt0 (tags.getD (i + 1) []) = some 'B' ∨
        (tags.getD (i + 1) []).drop 2 ≠ tag.drop 2 then
      new1 ++ [')']
    else new1

/-- The whole sequence as claim C7 describes it. -/
def conllClaim (tags : List Str) : List Str :=
  (List.range tags.length).map (conllClaimAt tags)

/-- The tag shapes for which claim C7's description is compared with the
code: `'O'`, or a 2-character prefix (any character followed by `'-'`)
with a non-empty label portion. -/
def ConllShaped (tag : Str) : Prop :=
  tag = Otag ∨ (3 ≤ tag.length ∧ tag.get? 1 = some '-')

instance (tag : Str) : Decidable (ConllShaped tag) :=
  inferInstanceAs (Decidable (tag = Otag ∨ (3 ≤ tag.length ∧ tag.get? 1 = some '-')))

/-! ## `bert_recipes.eval.SrlEvalScorer` counters and metrics -/

/-- The three per-label span counters of `SrlEvalScorer`
(`defaultdict(int)`s, modelled as association lists with absent keys
reading as 0). -/
structure ScorerState where
  true_positives : List (String × Nat)
  false_positives : List (String × Nat)
  false_negatives : List (String × Nat)

/-- `defaultdict(int)` read: 0 for a missing key. -/
def lookupD (m : List (String × Nat)) (k : String) : Nat :=
  match m.lookup k with
  | some v => v
  | none => 0

/-- `sum(d.values())`. -/
def sumValues (m : List (String × Nat)) : Nat :=
  (m.map Prod.snd).sum

/-- `SrlEvalScorer.reset` / the freshly-constructed counters. -/
def emptyState : ScorerState := ⟨[], [], []⟩

/-- The `1e-13` guard of `SrlEvalScorer._compute_metrics`, as an exact
rational. -/
def epsQ : ℚ := 1 / 10 ^ 13

/-- `SrlEvalScorer._compute_metrics` over exact rationals:
`(precision, recall, f1)`. -/
def compute_metrics (tp fp fneg : Nat) : ℚ × ℚ × ℚ :=
  let prec : ℚ := (tp : ℚ) / ((tp : ℚ) + (fp : ℚ) + epsQ)
  let rcl : ℚ := (tp : ℚ) / ((tp : ℚ) + (fneg : ℚ) + epsQ)
  (prec, rcl, 2 * ((prec * rcl) / (prec + rcl + epsQ)))

/-- `all_tags`: the union of the keys of the three counters (a Python
`set`, modelled as a deduplicated list). -/
def keysOf (s : ScorerState) : List String :=
  ((s.true_positives.map Prod.fst) ++ (s.false_positives.map Prod.fst) ++
    (s.false_negatives.map Prod.fst)).dedup

/-- Python exception kinds appearing in `bert_recipes/eval.py`. -/
inductive PyError
  | typeError
  | valueError
  | systemError
  | calledProcessError
  | ioError
deriving DecidableEq

/-- `SrlEvalScorer.get_tag2metrics`: per-tag metrics for every key ever
seen, plus an `'overall'` entry from the summed counters, raising
`ValueError` when a counter key is literally `'overall'`; when `reset` is
set the counters are cleared after computing the result.  Returns the
result together with the post-call counter state. -/
def get_tag2metrics (s : ScorerState) (reset : Bool) :
    Except PyError (List (String × (ℚ × ℚ × ℚ))) × ScorerState :=
  let all_tags := keysOf s
  if "overall" ∈ all_tags then (.error .valueError, s)
  else
    let res := all_tags.map (fun tag =>
      (tag, compute_metrics (lookupD s.true_positives tag) (lookupD s.false_positives tag)
        (lookupD s.false_negatives tag)))
    let overall := compute_metrics (sumValues s.true_positives) (sumValues s.false_positives)
      (sumValues s.false_negatives)
    (.ok (res ++ [("overall", overall)]), if reset then emptyState else s)

/-- Python's `set(xs)` applied to an `Optional` argument: iterating `None`
raises `TypeError`. -/
def pySet : Option (List String) → Except PyError (List String)
  | none => .error .typeError
  | some l => .ok l.dedup

/-- The attributes `SrlEvalScorer.__init__` assigns. -/
structure Scorer where
  srl_eval_path : String
  ignore_classes : List String
  state : ScorerState

/-- `SrlEvalScorer.__init__`: stores the script path and unconditionally
builds `set(ignore_classes)`; the declared default is
`ignore_classes=None`. -/
def SrlEvalScorer_init (srl_eval_path : String)
    (ignore_classes : Option (List String) := none) : Except PyError Scorer :=
  match pySet ignore_classes with
  | .error e => .error e
  | .ok cs => .ok ⟨srl_eval_path, cs, emptyState⟩

/-! ## `bert_recipes.eval.SrlEvalScorer.__call__`: temporary-directory
lifecycle -/

/-- The environment a single `SrlEvalScorer.__call__` runs in: whether
`os.path.exists(self._srl_eval_path)` holds, whether writing the two
temporary files succeeds, and whether the external `perl` process exits
with status 0 (`subprocess.run(..., check=True)` raises otherwise). -/
structure CallEnv where
  path_exists : Bool
  write_ok : Bool
  process_ok : Bool

/-- What a `__call__` invocation did: its outcome, whether
`tempfile.mkdtemp()` was reached, and whether `shutil.rmtree(tempdir)`
was executed. -/
structure CallOutcome where
  result : Except PyError Unit
  tempdir_created : Bool
  tempdir_removed : Bool

/-- Control-flow model of `SrlEvalScorer.__call__` restricted to the
temporary directory's lifecycle, in source order: the `SystemError` guard
precedes `mkdtemp`; the file writes and the `subprocess.run(check=True)`
call may raise; `shutil.rmtree(tempdir)` is the last statement of the
body and is not protected by any `try`/`finally`. -/
def scorer_call_tempdir (env : CallEnv) : CallOutcome :=
  if env.path_exists = false then ⟨.error .systemError, false, false⟩
  else if env.write_ok = false then ⟨.error .ioError, true, false⟩
  else if env.process_ok = false then ⟨.error .calledProcessError, true, false⟩
  else ⟨.ok (), true, true⟩

/-! ## `bert_recipes.eval.write_conll_formatted_tags_to_file` -/

/-- Python `s.ljust(w)`. -/
def ljust (s : Str) (w : Nat) : Str := s ++ List.replicate (w - s.length) ' '

/-- Python `s.rjust(w)`. -/
def rjust (s : Str) (w : Nat) : Str := List.replicate (w - s.length) ' ' ++ s

/-- `bert_recipes.eval.write_conll_formatted_tags_to_file`, returning the
text written to `(prediction_file, gold_file)`.  `verb_index` is the
function's `Optional[int]` argument (claims only exercise in-range
indices, where `List.set`/`getD` agree with Python indexing); note the
source guards the placement of the predicate word with the *truthiness*
test `if verb_index:`, under which both `None` and `0` skip the
assignment. -/
def write_conll_formatted_tags_to_file (verb_index : Option Nat)
    (sentence conll_formatted_predictions conll_formatted_gold_labels : List Str) :
    Str × Str :=
  let verb_only_sentence := List.replicate sentence.length ['-']
  let truthy : Bool :=
    match verb_index with
    | none => false
    | some vi => vi ≠ 0
  let verb_only_sentence :=
    if truthy = true then
      verb_only_sentence.set (verb_index.getD 0) (sentence.getD (verb_index.getD 0) [])
    else verb_only_sentence
  let triples := verb_only_sentence.zip
    (conll_formatted_predictions.zip conll_formatted_gold_labels)
  (triples.foldr (fun t acc => ljust t.1 15 ++ rjust t.2.1 15 ++ ['\n'] ++ acc) ['\n'],
   triples.foldr (fun t acc => ljust t.1 15 ++ rjust t.2.2 15 ++ ['\n'] ++ acc) ['\n'])

/-! ## Theorems -/

/-- **C10**: Constructing `SrlEvalScorer` without an `ignore_classes`
argument (the declared default `ignore_classes=None`) always raises a
`TypeError`, because the constructor unconditionally builds
`set(ignore_classes)` and `set(None)` raises; a caller must always supply
a (possibly empty) list of classes to ignore. -/
theorem claimC10_init_none_raises (srl_eval_path : String) :
    SrlEvalScorer_init srl_eval_path = Except.error PyError.typeError := rfl

/-- **C2** counterexample: in an environment where the external scorer
invocation fails (`perl` exits non-zero, so `subprocess.run(check=True)`
raises), `SrlEvalScorer.__call__` created the temporary directory but did
not remove it — refuting the claim that the directory is deleted on every
path. -/
theorem claimC2_counterexample :
    (scorer_call_tempdir ⟨true, true, false⟩).tempdir_created = true ∧
    (scorer_call_tempdir ⟨true, true, false⟩).tempdir_removed = false ∧
    (scorer_call_tempdir ⟨true, true, false⟩).result
      = Except.error PyError.calledProcessError :=
  ⟨rfl, rfl, rfl⟩

/-- **C2** amended: the temporary directory of `SrlEvalScorer.__call__`
is removed exactly on the successful path; whenever file writing or the
external process invocation raises, the directory is left behind (and it
is created whenever the `srl-eval.pl` existence guard passes). -/
theorem claimC2_amended (env : CallEnv) :
    ((scorer_call_tempdir env).tempdir_removed = true ↔
      (scorer_call_tempdir env).result = Except.ok ()) ∧
    ((scorer_call_tempdir env).tempdir_created = true ↔ env.path_exists = true) := by
  obtain ⟨p, w, k⟩ := env
  cases p <;> cases w <;> cases k <;> simp [scorer_call_tempdir]

/-- **C3**: evaluating `write_conll_formatted_tags_to_file` at the failing
input `verb_index = 0` on the one-word sentence `['runs']`: because of the
truthiness guard `if verb_index:`, the first column of the emitted line is
`'-'` and not the sentence's word at the verb index, contradicting the
claim (and the function's own documentation of `verb_index`). -/
theorem claimC3_verb_index_zero :
    (write_conll_formatted_tags_to_file (some 0) ["runs".data]
        ["(V*)".data] ["(V*)".data]).1
      = ljust ['-'] 15 ++ rjust "(V*)".data 15 ++ ['\n'] ++ ['\n'] ∧
    (write_conll_formatted_tags_to_file (some 0) ["runs".data]
        ["(V*)".data] ["(V*)".data]).1
      ≠ ljust "runs".data 15 ++ rjust "(V*)".data 15 ++ ['\n'] ++ ['\n'] := by
  decide

/-- Looking a key up in an appended association list skips a prefix that
does not contain the key. -/
theorem lookup_append_of_not_key {β : Type} (l1 l2 : List (String × β)) (k : String)
    (h : ∀ p ∈ l1, p.1 ≠ k) : (l1 ++ l2).lookup k = l2.lookup k := by
  induction l1 with
  | nil => rfl
  | cons a l ih =>
    obtain ⟨a1, a2⟩ := a
    have ha : ¬ (k == a1) = true := by
      simp only [beq_iff_eq]
      intro hk
      exact h (a1, a2) (by simp) (by simp [hk])
    simp only [List.cons_append, List.lookup, Bool.not_eq_true] at *
    rw [ha]
    exact ih fun p hp => h p (List.mem_cons_of_mem _ hp)

/-- **C8**: when `get_tag2metrics` returns (no counter key is the reserved
`'overall'`), its `'overall'` entry is `_compute_metrics` applied to the
element-wise sums of the three counters over all labels — not an average
of per-label metrics — and those formulas yield `(0, 0, 0)` (not NaN)
when all three counts are zero. -/
theorem claimC8_overall_from_summed_counts (s : ScorerState) (reset : Bool)
    (h : "overall" ∉ keysOf s) :
    compute_metrics 0 0 0 = ((0 : ℚ), (0 : ℚ), (0 : ℚ)) ∧
    ∃ res, (get_tag2metrics s reset).1 = Except.ok res ∧
      res.lookup "overall" = some (compute_metrics (sumValues s.true_positives)
        (sumValues s.false_positives) (sumValues s.false_negatives)) := by
  constructor
  · simp [compute_metrics]
  · refine ⟨(keysOf s).map (fun tag =>
      (tag, compute_metrics (lookupD s.true_positives tag) (lookupD s.false_positives tag)
        (lookupD s.false_negatives tag))) ++
      [("overall", compute_metrics (sumValues s.true_positives) (sumValues s.false_positives)
        (sumValues s.false_negatives))], ?_, ?_⟩
    · simp only [get_tag2metrics, if_neg h]
    · rw [lookup_append_of_not_key]
      · simp [List.lookup]
      · intro p hp
        obtain ⟨tag, htag, rfl⟩ := List.mem_map.mp hp
        intro hc
        exact h (hc ▸ htag)

/-- **C8** witness at a concrete counter state. -/
theorem claimC8_witness :
    compute_metrics 0 0 0 = ((0 : ℚ), (0 : ℚ), (0 : ℚ)) ∧
    ∃ res, (get_tag2metrics ⟨[("ARG0", 5)], [("ARG0", 1)], [("ARG0", 0)]⟩ false).1
        = Except.ok res ∧
      res.lookup "overall" = some (compute_metrics
        (sumValues [("ARG0", 5)]) (sumValues [("ARG0", 1)]) (sumValues [("ARG0", 0)])) :=
  claimC8_overall_from_summed_counts ⟨[("ARG0", 5)], [("ARG0", 1)], [("ARG0", 0)]⟩ false
    (by decide)

/-- **C9**: `get_tag2metrics(reset=True)` empties all three per-label
counters after computing its result, so a subsequent `get_tag2metrics`
call with no intervening scoring reports zero counts for every previously
seen label: its result carries no per-label entry at all, only an
`'overall'` entry computed from all-zero counts, which is `(0, 0, 0)`. -/
theorem claimC9_reset_clears_counters (s : ScorerState) (h : "overall" ∉ keysOf s) :
    (get_tag2metrics s true).2 = emptyState ∧
    (∀ tag, lookupD (get_tag2metrics s true).2.true_positives tag = 0 ∧
      lookupD (get_tag2metrics s true).2.false_positives tag = 0 ∧
      lookupD (get_tag2metrics s true).2.false_negatives tag = 0) ∧
    (get_tag2metrics (get_tag2metrics s true).2 false).1
      = Except.ok [("overall", compute_metrics 0 0 0)] ∧
    compute_metrics 0 0 0 = ((0 : ℚ), (0 : ℚ), (0 : ℚ)) := by
  have h2 : (get_tag2metrics s true).2 = emptyState := by
    simp [get_tag2metrics, if_neg h]
  refine ⟨h2, ?_, ?_, by simp [compute_metrics]⟩
  · intro tag
    rw [h2]
    exact ⟨rfl, rfl, rfl⟩
  · rw [h2]
    rfl

/-- **C9** witness at a concrete counter state. -/
theorem claimC9_witness :
    (get_tag2metrics ⟨[("ARG0", 5)], [("ARG1", 1)], []⟩ true).2 = emptyState ∧
    (∀ tag,
      lookupD (get_tag2metrics ⟨[("ARG0", 5)], [("ARG1", 1)], []⟩ true).2.true_positives tag
        = 0 ∧
      lookupD (get_tag2metrics ⟨[("ARG0", 5)], [("ARG1", 1)], []⟩ true).2.false_positives tag
        = 0 ∧
      lookupD (get_tag2metrics ⟨[("ARG0", 5)], [("ARG1", 1)], []⟩ true).2.false_negatives tag
        = 0) ∧
    (get_tag2metrics (get_tag2metrics ⟨[("ARG0", 5)], [("ARG1", 1)], []⟩ true).2 false).1
      = Except.ok [("overall", compute_metrics 0 0 0)] ∧
    compute_metrics 0 0 0 = ((0 : ℚ), (0 : ℚ), (0 : ℚ)) :=
  claimC9_reset_clears_counters ⟨[("ARG0", 5)], [("ARG1", 1)], []⟩ (by decide)

/-! ### C1: the aligner round trip -/

/-- The wordpiece buffer built by the `convert_words_to_wordpieces` loop
is the concatenation of the per-word piece lists. -/
theorem cwtwAux_fst (tok : Str → List Str) (c : Nat) (ts : List Str) :
    (cwtwAux tok c ts).1 = (ts.map tok).flatten := by
  induction ts generalizing c with
  | nil => rfl
  | cons t ts ih => simp [cwtwAux, ih]

/-- `takeWhile` swallows a prefix on which the predicate holds. -/
theorem takeWhile_append_of_all {p : Str → Bool} (tl l : List Str)
    (h : ∀ x ∈ tl, p x = true) : (tl ++ l).takeWhile p = tl ++ l.takeWhile p := by
  induction tl with
  | nil => rfl
  | cons a tl ih =>
    have ha := h a (by simp)
    simp [List.takeWhile_cons, ha, ih fun x hx => h x (List.mem_cons_of_mem _ hx)]

/-- A continuation piece is not the `'[SEP]'` literal. -/
theorem startsHH_ne_SEP {p : Str} (h : startsHH p = true) : p ≠ SEP := by
  intro hp
  rw [hp] at h
  exact absurd h (by decide)

/-- The scan of `convert_wordpieces_to_words` skips over a block of
continuation pieces (none of them is at position 0 here, and none can be
a trailing `'[SEP]'`). -/
theorem reconAux_skip_hh (tl l : List Str) (h : ∀ x ∈ tl, startsHH x = true) :
    reconAux false (tl ++ l) = reconAux false l := by
  induction tl with
  | nil => rfl
  | cons a tl ih =>
    have ha := h a (by simp)
    have haS : a ≠ SEP := startsHH_ne_SEP ha
    simp only [List.cons_append, reconAux, List.append_eq]
    rw [if_neg (by simp), if_neg (fun hc => haS hc.1), if_pos ha]
    exact ih fun x hx => h x (List.mem_cons_of_mem _ hx)

/-- After the pieces of the previous words, the scan sees either the first
piece of the next word (not a continuation piece) or the trailing
`'[SEP]'`, so the greedy continuation take-while stops. -/
theorem takeWhile_flatten_SEP (tok : Str → List Str) (ws : List Str)
    (h : ∀ w ∈ ws, goodPieces (tok w)) :
    ((ws.map tok).flatten ++ [SEP]).takeWhile startsHH = [] := by
  cases ws with
  | nil => rfl
  | cons w ws =>
    obtain ⟨hne, hhd, -⟩ := h w (by simp)
    cases htok : tok w with
    | nil => exact absurd htok hne
    | cons hd tl =>
      have : startsHH hd = false := by
        apply hhd
        rw [htok]
        rfl
      simp [htok, List.takeWhile_cons, this]

/-- Core of the round trip: scanning the flattened piece lists (followed
by the trailing `'[SEP]'`) reconstructs one word per original word, each
the plain concatenation of that word's pieces. -/
theorem reconAux_body (tok : Str → List Str) (ws : List Str)
    (h : ∀ w ∈ ws, goodPieces (tok w)) :
    reconAux false ((ws.map tok).flatten ++ [SEP])
      = ws.map (fun w => (tok w).flatten) := by
  induction ws with
  | nil => rfl
  | cons w ws ih =>
    obtain ⟨hne, hhd, htl⟩ := h w (by simp)
    cases htok : tok w with
    | nil => exact absurd htok hne
    | cons hd tl =>
      have hhd' : startsHH hd = false := by
        apply hhd
        rw [htok]
        rfl
      have htl' : ∀ p ∈ tl, startsHH p = true := by
        intro p hp
        apply htl
        rw [htok]
        exact hp
      have hrest : ∀ w' ∈ ws, goodPieces (tok w') :=
        fun w' hw' => h w' (List.mem_cons_of_mem _ hw')
      have hflat : ((w :: ws).map tok).flatten ++ [SEP]
          = hd :: (tl ++ ((ws.map tok).flatten ++ [SEP])) := by
        simp [htok]
      rw [hflat]
      have hne2 : ¬(hd = SEP ∧ tl ++ ((ws.map tok).flatten ++ [SEP]) = []) := by
        rintro ⟨-, hc⟩
        simp [List.append_eq_nil] at hc
      simp only [reconAux, if_neg (by simp : ¬(hd = CLS ∧ false = true)), if_neg hne2,
        if_neg (by simp [hhd'] : ¬ startsHH hd = true)]
      rw [takeWhile_append_of_all tl _ htl', takeWhile_flatten_SEP tok ws hrest,
        reconAux_skip_hh tl _ htl', ih hrest]
      simp [convert_sub_text_to_word, htok]

/-- **C1** counterexample: for the word list `['annotate']` under a
tokenizer splitting `'annotate'` into `['anno', '##tate']` — an input
satisfying the claim's premises (no piece is a `'[CLS]'`/`'[SEP]'`
literal, every word maps to a non-empty piece sequence) — the round trip
returns `['anno##tate']`: the `'##'` continuation markers are *not*
stripped (`convert_sub_text_to_word` is called with its default
`remove_garbage=False`), so the original word list is not reproduced. -/
theorem claimC1_counterexample :
    (∀ w ∈ [("annotate".data : Str)], tokEx w ≠ [] ∧ ∀ p ∈ tokEx w, p ≠ CLS ∧ p ≠ SEP) ∧
    convert_wordpieces_to_words (convert_words_to_wordpieces ["annotate".data] tokEx).1
      = ["anno##tate".data] ∧
    convert_wordpieces_to_words (convert_words_to_wordpieces ["annotate".data] tokEx).1
      ≠ ["annotate".data] := by
  decide

/-- **C1** amended: for every word list in which (per the data model) each
word maps to a non-empty piece sequence whose first piece is not a
continuation piece and whose later pieces all are, and no word's pieces
contain a `'[CLS]'` or `'[SEP]'` literal, the round trip
`convert_wordpieces_to_words (convert_words_to_wordpieces words tok).1`
returns the original word list with each word replaced by the plain
concatenation of its pieces, continuation markers retained (so the
original list itself is reproduced exactly when each word equals that
concatenation, e.g. when no word is split). -/
theorem claimC1_roundtrip_amended (tok : Str → List Str) (words : List Str)
    (hgood : ∀ w ∈ words, goodPieces (tok w))
    (hlit : ∀ w ∈ words, ∀ p ∈ tok w, p ≠ CLS ∧ p ≠ SEP) :
    convert_wordpieces_to_words (convert_words_to_wordpieces words tok).1
      = words.map (fun w => (tok w).flatten) := by
  have h1 : (convert_words_to_wordpieces words tok).1
      = CLS :: ((words.map tok).flatten ++ [SEP]) := by
    simp [convert_words_to_wordpieces, cwtwAux_fst]
  rw [h1, convert_wordpieces_to_words]
  simp only [reconAux]
  rw [if_pos (⟨trivial, trivial⟩ : True ∧ True)]
  exact reconAux_body tok words hgood

/-- **C1** amended, witnessed at a concrete two-word input (one split
word, one unsplit word). -/
theorem claimC1_witness :
    convert_wordpieces_to_words
        (convert_words_to_wordpieces ["annotate".data, "here".data] tokEx).1
      = (["annotate".data, "here".data] : List Str).map (fun w => (tokEx w).flatten) :=
  claimC1_roundtrip_amended tokEx ["annotate".data, "here".data] (by decide) (by decide)

/-! ### C4: offset bookkeeping of `convert_words_to_wordpieces` -/

/-- One start and one end offset are recorded per token. -/
theorem cwtwAux_lengths (tok : Str → List Str) (c : Nat) (ts : List Str) :
    (cwtwAux tok c ts).2.1.length = ts.length ∧
    (cwtwAux tok c ts).2.2.length = ts.length := by
  induction ts generalizing c with
  | nil => exact ⟨rfl, rfl⟩
  | cons t ts ih => simpa [cwtwAux] using ih (c + (tok t).length)

/-- Every start offset lies in `(c, c + totalPieces]`. -/
theorem cwtwAux_starts_bounds (tok : Str → List Str) (c : Nat) (ts : List Str)
    (h : ∀ t ∈ ts, tok t ≠ []) :
    ∀ o ∈ (cwtwAux tok c ts).2.2, c + 1 ≤ o ∧ o ≤ c + ((ts.map tok).flatten).length := by
  induction ts generalizing c with
  | nil => intro o ho; exact absurd ho (by simp [cwtwAux])
  | cons t ts ih =>
    intro o ho
    have hk : 1 ≤ (tok t).length :=
      List.length_pos.mpr (h t (by simp))
    rcases List.mem_cons.mp ho with rfl | ho'
    · constructor
      · exact le_refl _
      · simp only [List.map_cons, List.flatten_cons, List.length_append]
        omega
    · have := ih (c + (tok t).length) (fun x hx => h x (List.mem_cons_of_mem _ hx)) o ho'
      simp only [List.map_cons, List.flatten_cons, List.length_append]
      omega

/-- Every end offset lies in `(c, c + totalPieces]`. -/
theorem cwtwAux_ends_bounds (tok : Str → List Str) (c : Nat) (ts : List Str)
    (h : ∀ t ∈ ts, tok t ≠ []) :
    ∀ o ∈ (cwtwAux tok c ts).2.1, c + 1 ≤ o ∧ o ≤ c + ((ts.map tok).flatten).length := by
  induction ts generalizing c with
  | nil => intro o ho; exact absurd ho (by simp [cwtwAux])
  | cons t ts ih =>
    intro o ho
    have hk : 1 ≤ (tok t).length :=
      List.length_pos.mpr (h t (by simp))
    rcases List.mem_cons.mp ho with rfl | ho'
    · simp only [List.map_cons, List.flatten_cons, List.length_append]
      omega
    · have := ih (c + (tok t).length) (fun x hx => h x (List.mem_cons_of_mem _ hx)) o ho'
      simp only [List.map_cons, List.flatten_cons, List.length_append]
      omega

/-- At every index, the start offset does not exceed the end offset. -/
theorem cwtwAux_start_le_end (tok : Str → List Str) (c : Nat) (ts : List Str)
    (h : ∀ t ∈ ts, tok t ≠ []) :
    ∀ (i : Nat) (s e : Nat), (cwtwAux tok c ts).2.2[i]? = some s → (cwtwAux tok c ts).2.1[i]? = some e →
      s ≤ e := by
  induction ts generalizing c with
  | nil => intro i s e hs; simp [cwtwAux] at hs
  | cons t ts ih =>
    intro i s e hs he
    have hk : 1 ≤ (tok t).length :=
      List.length_pos.mpr (h t (by simp))
    cases i with
    | zero =>
      simp only [cwtwAux, List.getElem?_cons_zero, Option.some_inj] at hs he
      omega
    | succ i =>
      simp only [cwtwAux, List.getElem?_cons_succ] at hs he
      exact ih (c + (tok t).length) (fun x hx => h x (List.mem_cons_of_mem _ hx)) i s e hs he

/-- Each end offset is strictly below the next word's start offset. -/
theorem cwtwAux_end_lt_next_start (tok : Str → List Str) (c : Nat) (ts : List Str) :
    ∀ (i : Nat) (e s : Nat), (cwtwAux tok c ts).2.1[i]? = some e → (cwtwAux tok c ts).2.2[i + 1]? = some s →
      e < s := by
  induction ts generalizing c with
  | nil => intro i e s he; simp [cwtwAux] at he
  | cons t ts ih =>
    intro i e s he hs
    cases i with
    | zero =>
      simp only [cwtwAux, List.getElem?_cons_zero, List.getElem?_cons_succ,
        Option.some_inj] at he hs
      cases ts with
      | nil => simp [cwtwAux] at hs
      | cons t' ts' =>
        simp only [cwtwAux, List.getElem?_cons_zero, Option.some_inj] at hs
        omega
    | succ i =>
      simp only [cwtwAux, List.getElem?_cons_succ] at he hs
      exact ih (c + (tok t).length) i e s he hs

/-- The last recorded end offset is the total piece count (shifted by the
starting cumulative count). -/
theorem cwtwAux_ends_getLast (tok : Str → List Str) (ts : List Str) :
    ∀ c t, (cwtwAux tok c (t :: ts)).2.1.getLast?
      = some (c + (((t :: ts).map tok).flatten).length) := by
  induction ts with
  | nil => intro c t; simp [cwtwAux]
  | cons t' ts' ih =>
    intro c t
    have h1 := ih (c + (tok t).length) t'
    have h2 : (cwtwAux tok c (t :: t' :: ts')).2.1
        = (c + (tok t).length) :: (cwtwAux tok (c + (tok t).length) (t' :: ts')).2.1 := rfl
    rw [h2]
    rcases h3 : (cwtwAux tok (c + (tok t).length) (t' :: ts')).2.1 with _ | ⟨x, xs⟩
    · exact absurd (congrArg List.length h3)
        (by simp [(cwtwAux_lengths tok (c + (tok t).length) (t' :: ts')).1])
    · rw [h3] at h1
      rw [List.getLast?_cons_cons, h1]
      congr 1
      simp only [List.map_cons, List.flatten_cons, List.length_append]
      omega

/-- **C4**: for every word list whose piece lookup maps each word to a
non-empty piece sequence, `convert_words_to_wordpieces` returns as many
start offsets and end offsets as words; `start_offsets[i] <=
end_offsets[i] < start_offsets[i+1]`; every offset is 1-based into the
returned wordpiece sequence and never points at the prepended `'[CLS]'`
(index 0) or the appended `'[SEP]'` (last index); and the last end offset
equals the number of pieces excluding the two sentinel markers. -/
theorem claimC4_offset_invariants (tok : Str → List Str) (tokens : List Str)
    (h : ∀ t ∈ tokens, tok t ≠ []) :
    (convert_words_to_wordpieces tokens tok).2.2.length = tokens.length ∧
    (convert_words_to_wordpieces tokens tok).2.1.length = tokens.length ∧
    (∀ (i : Nat) (s e : Nat), (convert_words_to_wordpieces tokens tok).2.2[i]? = some s →
      (convert_words_to_wordpieces tokens tok).2.1[i]? = some e → s ≤ e) ∧
    (∀ (i : Nat) (e s : Nat), (convert_words_to_wordpieces tokens tok).2.1[i]? = some e →
      (convert_words_to_wordpieces tokens tok).2.2[i + 1]? = some s → e < s) ∧
    (∀ o ∈ (convert_words_to_wordpieces tokens tok).2.2,
      1 ≤ o ∧ o + 1 < (convert_words_to_wordpieces tokens tok).1.length) ∧
    (∀ o ∈ (convert_words_to_wordpieces tokens tok).2.1,
      1 ≤ o ∧ o + 1 < (convert_words_to_wordpieces tokens tok).1.length) ∧
    (tokens ≠ [] → (convert_words_to_wordpieces tokens tok).2.1.getLast?
      = some ((convert_words_to_wordpieces tokens tok).1.length - 2)) := by
  have hlen : (convert_words_to_wordpieces tokens tok).1.length
      = ((tokens.map tok).flatten).length + 2 := by
    simp [convert_words_to_wordpieces, cwtwAux_fst]
  refine ⟨(cwtwAux_lengths tok 0 tokens).2, (cwtwAux_lengths tok 0 tokens).1,
    cwtwAux_start_le_end tok 0 tokens h, cwtwAux_end_lt_next_start tok 0 tokens,
    ?_, ?_, ?_⟩
  · intro o ho
    have := cwtwAux_starts_bounds tok 0 tokens h o ho
    omega
  · intro o ho
    have := cwtwAux_ends_bounds tok 0 tokens h o ho
    omega
  · intro hne
    obtain ⟨t, ts, rfl⟩ := List.exists_cons_of_ne_nil hne
    rw [show (convert_words_to_wordpieces (t :: ts) tok).2.1
        = (cwtwAux tok 0 (t :: ts)).2.1 from rfl,
      cwtwAux_ends_getLast tok ts 0 t, hlen]
    congr 1
    omega

/-- **C4** witness at a concrete two-word input. -/
theorem claimC4_witness :
    (convert_words_to_wordpieces ["annotate".data, "here".data] tokEx).2.2.length = 2 ∧
    (convert_words_to_wordpieces ["annotate".data, "here".data] tokEx).2.1.length = 2 ∧
    (∀ (i : Nat) (s e : Nat), (convert_words_to_wordpieces ["annotate".data, "here".data] tokEx).2.2[i]?
        = some s →
      (convert_words_to_wordpieces ["annotate".data, "here".data] tokEx).2.1[i]? = some e →
      s ≤ e) ∧
    (∀ (i : Nat) (e s : Nat), (convert_words_to_wordpieces ["annotate".data, "here".data] tokEx).2.1[i]?
        = some e →
      (convert_words_to_wordpieces ["annotate".data, "here".data] tokEx).2.2[i + 1]?
        = some s →
      e < s) ∧
    (∀ o ∈ (convert_words_to_wordpieces ["annotate".data, "here".data] tokEx).2.2,
      1 ≤ o ∧ o + 1 < (convert_words_to_wordpieces ["annotate".data, "here".data] tokEx).1.length) ∧
    (∀ o ∈ (convert_words_to_wordpieces ["annotate".data, "here".data] tokEx).2.1,
      1 ≤ o ∧ o + 1 < (convert_words_to_wordpieces ["annotate".data, "here".data] tokEx).1.length) ∧
    ((["annotate".data, "here".data] : List Str) ≠ [] →
      (convert_words_to_wordpieces ["annotate".data, "here".data] tokEx).2.1.getLast?
      = some ((convert_words_to_wordpieces ["annotate".data, "here".data] tokEx).1.length - 2)) := by
  have := claimC4_offset_invariants tokEx ["annotate".data, "here".data] (by decide)
  simpa using this

/-! ### C5: per-word behaviour of `convert_bio_tags_to_wordpieces` -/

/-- A shaped tag is `'O'`, or `'B-'`/`'I-'` followed by its label
portion. -/
theorem BIOShaped_cases {tag : Str} (h : BIOShaped tag) :
    tag = Otag ∨ tag = 'B' :: '-' :: tag.drop 2 ∨ tag = 'I' :: '-' :: tag.drop 2 := by
  rcases h with h | h | h
  · exact Or.inl h
  · refine Or.inr (Or.inl ?_)
    conv_lhs => rw [← List.take_append_drop 2 tag]
    rw [h]
    rfl
  · refine Or.inr (Or.inr ?_)
    conv_lhs => rw [← List.take_append_drop 2 tag]
    rw [h]
    rfl

/-- `'B-label'.split('-', 1)[1] = 'label'`. -/
theorem splitAfterDash_B (l : Str) : splitAfterDash ('B' :: '-' :: l) = l := rfl

/-- The while loop on tag `'O'` emits `'O'` once per piece. -/
theorem cbtwPieces_O (k : Nat) (s : Bool) :
    cbtwPieces Otag k s = List.replicate k Otag := by
  induction k generalizing s with
  | zero => rfl
  | succ k ih => simp [cbtwPieces, ih, List.replicate_succ]

/-- The while loop on an `'I-'` tag repeats it unchanged on every piece. -/
theorem cbtwPieces_I (l : Str) (k : Nat) (s : Bool) :
    cbtwPieces ('I' :: '-' :: l) k s = List.replicate k ('I' :: '-' :: l) := by
  induction k generalizing s with
  | zero => rfl
  | succ k ih =>
    rw [cbtwPieces, if_neg (by simp [Otag]), if_pos (by rfl), ih]
    rfl

/-- The while loop on a `'B-'` tag with `is_start` already consumed emits
the corresponding `'I-'` tag on every remaining piece. -/
theorem cbtwPieces_B_false (l : Str) (k : Nat) :
    cbtwPieces ('B' :: '-' :: l) k false = List.replicate k ('I' :: '-' :: l) := by
  induction k with
  | zero => rfl
  | succ k ih =>
    rw [cbtwPieces, if_neg (by simp [Otag]), if_neg (by simp [startsWithChar]),
      if_neg (by simp), if_pos (by rfl), ih, splitAfterDash_B]
    rfl

/-- The while loop on a `'B-'` tag emits it on the first piece and the
corresponding `'I-'` tag on every later piece of the word. -/
theorem cbtwPieces_B_true (l : Str) (k : Nat) :
    cbtwPieces ('B' :: '-' :: l) (k + 1) true
      = ('B' :: '-' :: l) :: List.replicate k ('I' :: '-' :: l) := by
  rw [cbtwPieces, if_neg (by simp [Otag]), if_neg (by simp [startsWithChar]),
    if_pos ⟨rfl, rfl⟩, cbtwPieces_B_false]

/-- On a shaped tag, the while loop produces exactly the per-word block
the claims describe. -/
theorem cbtwPieces_eq_claimBlock {tag : Str} (h : BIOShaped tag) (k : Nat) :
    cbtwPieces tag k true = claimBlock tag k := by
  rcases BIOShaped_cases h with rfl | heq | heq
  · rw [cbtwPieces_O, claimBlock, if_pos rfl]
  · rw [claimBlock, if_neg (by rw [heq]; simp [Otag]),
      if_neg (by rw [heq]; simp [startsWithChar])]
    cases k with
    | zero =>
      rw [if_pos rfl]
      rfl
    | succ k =>
      rw [if_neg (Nat.succ_ne_zero k)]
      conv_lhs => rw [heq]
      rw [cbtwPieces_B_true]
      simp only [Nat.add_sub_cancel]
      rw [← heq]
  · rw [claimBlock, if_neg (by rw [heq]; simp [Otag]),
      if_pos (by rw [heq]; simp [startsWithChar])]
    conv_lhs => rw [heq]
    rw [cbtwPieces_I, ← heq]

/-- Under strictly increasing offsets, the double loop of
`convert_bio_tags_to_wordpieces` equals the per-word claim-side
assembly. -/
theorem cbtwAux_eq_claimProjection (tags : List Str) :
    ∀ (offsets : List Nat) (j : Nat), (∀ t ∈ tags, BIOShaped t) →
      List.Chain (· < ·) j offsets →
      cbtwAux j (tags.zip offsets) = claimProjection j (tags.zip offsets) := by
  induction tags with
  | nil => intro offsets j _ _; rfl
  | cons t ts ih =>
    intro offsets j hshape hchain
    cases offsets with
    | nil => rfl
    | cons off offs =>
      obtain ⟨hj, hchain'⟩ := List.chain_cons.mp hchain
      have hmax : max j off = off := max_eq_right (le_of_lt hj)
      rw [List.zip_cons_cons]
      show cbtwPieces t (off - j) true ++ cbtwAux (max j off) (ts.zip offs)
          = claimBlock t (off - j) ++ claimProjection off (ts.zip offs)
      rw [hmax, cbtwPieces_eq_claimBlock (hshape t (by simp)),
        ih offs off (fun x hx => hshape x (List.mem_cons_of_mem _ hx)) hchain']

/-- **C5**: for every word-level BIO tag sequence (each tag `'O'`,
`'B-<label>'` or `'I-<label>'`) and matching strictly increasing 1-based
end offsets, `convert_bio_tags_to_wordpieces` assigns, per word and in
left-to-right piece order: `'O'` on every piece for tag `'O'`;
`'I-<label>'` unchanged on every piece; `'B-<label>'` on the first piece
and `'I-<label>'` on every later piece of the same word — and brackets
the result with a single `'O'` for the START position and a single `'O'`
for the END position. -/
theorem claimC5_tag_projection (tags : List Str) (offsets : List Nat)
    (hlen : tags.length = offsets.length)
    (hshape : ∀ t ∈ tags, BIOShaped t)
    (hchain : List.Chain (· < ·) 0 offsets) :
    convert_bio_tags_to_wordpieces tags offsets
      = Otag :: claimProjection 0 (tags.zip offsets) ++ [Otag] := by
  rw [convert_bio_tags_to_wordpieces, cbtwAux_eq_claimProjection tags offsets 0 hshape hchain]

/-- **C5** witness: a split `'B-'` word, a split `'I-'` word and an
unsplit `'O'` word. -/
theorem claimC5_witness :
    convert_bio_tags_to_wordpieces ["B-ARG1".data, "I-ARG1".data, "O".data] [2, 4, 5]
      = Otag :: claimProjection 0
          ((["B-ARG1".data, "I-ARG1".data, "O".data] : List Str).zip [2, 4, 5]) ++ [Otag] :=
  claimC5_tag_projection ["B-ARG1".data, "I-ARG1".data, "O".data] [2, 4, 5]
    (by decide) (by decide) (by simp [List.chain_cons])

/-! ### C6: well-formedness preservation of the tag projection -/

/-- Repeating a self-related element preserves a chain. -/
theorem chain'_cons_replicate {R : Str → Str → Prop} (y : Str) (m : Nat) (l : List Str)
    (hyy : R y y) (h : List.Chain' R (y :: l)) :
    List.Chain' R (y :: List.replicate m y ++ l) := by
  induction m with
  | zero => simpa using h
  | succ m ih =>
    rw [List.replicate_succ, List.cons_append]
    exact List.Chain'.cons hyy ih

/-- Replacing the head of a chain by an element related to the same
successors preserves the chain. -/
theorem chain'_replace_head {R : Str → Str → Prop} {t y : Str} {ts : List Str}
    (h : ∀ z, R t z → R y z) (hc : List.Chain' R (t :: ts)) : List.Chain' R (y :: ts) := by
  cases ts with
  | nil => exact List.chain'_singleton y
  | cons u us =>
    obtain ⟨h1, h2⟩ := List.chain'_cons.mp hc
    exact List.Chain'.cons (h u h1) h2

/-- Whatever a `'B-<label>'` tag may legally precede, the `'I-<label>'`
tag with the same label may precede as well. -/
theorem okPair_transfer (l : Str) : ∀ z, okPair ('B' :: '-' :: l) z → okPair ('I' :: '-' :: l) z := by
  intro z h hIz
  rcases h hIz with h1 | h1
  · right
    have h3 : l = z.drop 2 := by
      have := congrArg (List.drop 2) h1
      simpa [Btag] using this
    rw [Itag, h3]
  · exfalso
    rw [Itag] at h1
    injection h1 with hBI _
    exact absurd hBI (by decide)

/-- Core of C6: the claim-side projected piece tags, bracketed by the
trailing `'O'`, form an `okPair` chain, given a leading element `x` that
legally precedes the first word tag. -/
theorem claimProjection_chain' (tags : List Str) :
    ∀ (offsets : List Nat) (x : Str) (j : Nat),
      (∀ t ∈ tags, BIOShaped t) →
      List.Chain (· < ·) j offsets →
      List.Chain' okPair (x :: tags) →
      List.Chain' okPair (x :: claimProjection j (tags.zip offsets) ++ [Otag]) := by
  induction tags with
  | nil =>
    intro offsets x j _ _ _
    show List.Chain' okPair (x :: [Otag])
    exact List.Chain'.cons (fun h => absurd h (by decide)) (List.chain'_singleton _)
  | cons t ts ih =>
    intro offsets x j hshape hchain hwf
    cases offsets with
    | nil =>
      show List.Chain' okPair (x :: [Otag])
      exact List.Chain'.cons (fun h => absurd h (by decide)) (List.chain'_singleton _)
    | cons off offs =>
      obtain ⟨hj, hchain'⟩ := List.chain_cons.mp hchain
      obtain ⟨hxt, hts⟩ := List.chain'_cons.mp hwf
      have hshape' := fun z hz => hshape z (List.mem_cons_of_mem _ hz)
      have hk : off - j ≠ 0 := by omega
      rw [List.zip_cons_cons]
      show List.Chain' okPair
        ((x :: (claimBlock t (off - j) ++ claimProjection off (ts.zip offs))) ++ [Otag])
      rw [List.cons_append, List.append_assoc]
      rcases BIOShaped_cases (hshape t (by simp)) with rfl | heq | heq
      · -- word tag 'O'
        obtain ⟨m, hm⟩ : ∃ m, off - j = m + 1 := ⟨off - j - 1, by omega⟩
        rw [claimBlock, if_pos rfl, hm, List.replicate_succ, List.cons_append]
        exact List.Chain'.cons (fun h => absurd h (by decide))
          (chain'_cons_replicate _ _ _ (fun h => absurd h (by decide))
            (ih offs Otag off hshape' hchain' hts))
      · -- word tag 'B-<label>'
        rw [claimBlock, if_neg (by rw [heq]; simp [Otag]),
          if_neg (by rw [heq]; simp [startsWithChar]), if_neg hk]
        rcases hm : off - j - 1 with _ | m
        · simp only [List.replicate_zero, List.cons_append, List.nil_append]
          exact List.Chain'.cons hxt (ih offs t off hshape' hchain' hts)
        · rw [List.replicate_succ, List.cons_append, List.cons_append]
          refine List.Chain'.cons hxt (List.Chain'.cons ?_ ?_)
          · rw [heq]
            exact fun _ => Or.inl rfl
          · refine chain'_cons_replicate _ _ _ (fun _ => Or.inr rfl) ?_
            refine ih offs _ off hshape' hchain' ?_
            refine chain'_replace_head ?_ hts
            intro z hz
            rw [heq] at hz
            exact okPair_transfer _ z hz
      · -- word tag 'I-<label>'
        rw [claimBlock, if_neg (by rw [heq]; simp [Otag]),
          if_pos (by rw [heq]; simp [startsWithChar])]
        obtain ⟨m, hm⟩ : ∃ m, off - j = m + 1 := ⟨off - j - 1, by omega⟩
        rw [hm, List.replicate_succ, List.cons_append]
        refine List.Chain'.cons hxt ?_
        refine chain'_cons_replicate _ _ _ ?_ (ih offs t off hshape' hchain' hts)
        rw [heq]
        exact fun _ => Or.inr rfl

/-- On a shaped tag, the while loop emits exactly one piece tag per
iteration. -/
theorem cbtwPieces_length {tag : Str} (h : BIOShaped tag) (k : Nat) :
    (cbtwPieces tag k true).length = k := by
  rw [cbtwPieces_eq_claimBlock h]
  rcases BIOShaped_cases h with rfl | heq | heq
  · rw [claimBlock, if_pos rfl, List.length_replicate]
  · rw [claimBlock, if_neg (by rw [heq]; simp [Otag]),
      if_neg (by rw [heq]; simp [startsWithChar])]
    cases k with
    | zero => rw [if_pos rfl]; rfl
    | succ k => rw [if_neg (Nat.succ_ne_zero k)]; simp
  · rw [claimBlock, if_neg (by rw [heq]; simp [Otag]),
      if_pos (by rw [heq]; simp [startsWithChar]), List.length_replicate]

/-- The body of the projected sequence has as many tags as the last end
offset (the cumulative counts telescope). -/
theorem cbtwAux_length (tags : List Str) :
    ∀ (offsets : List Nat) (j : Nat), tags.length = offsets.length →
      (∀ t ∈ tags, BIOShaped t) → List.Chain (· < ·) j offsets →
      (cbtwAux j (tags.zip offsets)).length + j = offsets.getLastD j := by
  induction tags with
  | nil =>
    intro offsets j hlen _ _
    cases offsets with
    | nil => simp [cbtwAux]
    | cons _ _ => simp at hlen
  | cons t ts ih =>
    intro offsets j hlen hshape hchain
    cases offsets with
    | nil => simp at hlen
    | cons off offs =>
      obtain ⟨hj, hchain'⟩ := List.chain_cons.mp hchain
      rw [List.zip_cons_cons]
      show (cbtwPieces t (off - j) true ++ cbtwAux (max j off) (ts.zip offs)).length + j
          = (off :: offs).getLastD j
      rw [List.length_append, cbtwPieces_length (hshape t (by simp)),
        max_eq_right (le_of_lt hj), List.getLastD_cons]
      have := ih offs off (by simpa using hlen)
        (fun z hz => hshape z (List.mem_cons_of_mem _ hz)) hchain'
      omega

/-- **C6**: for every well-formed word-level BIO tag sequence (each tag
`'O'`, `'B-<label>'` or `'I-<label>'`, no leading `'I-'` tag, and every
`'I-<label>'` preceded by a `'B-'`/`'I-'` tag of the same label) and
matching strictly increasing positive end offsets, the output of
`convert_bio_tags_to_wordpieces` has length `end_offsets[-1] + 2` and is
itself a well-formed BIO sequence: every piece-level `'I-<label>'` is
preceded by a piece-level `'B-'`/`'I-'` tag of the same label (hence,
transitively, by a `'B-<label>'`). -/
theorem claimC6_wellformed_projection (tags : List Str) (offsets : List Nat)
    (hlen : tags.length = offsets.length)
    (hshape : ∀ t ∈ tags, BIOShaped t)
    (hwf : wfBio tags)
    (hchain : List.Chain (· < ·) 0 offsets) :
    (convert_bio_tags_to_wordpieces tags offsets).length = offsets.getLastD 0 + 2 ∧
    wfBio (convert_bio_tags_to_wordpieces tags offsets) := by
  constructor
  · have := cbtwAux_length tags offsets 0 hlen hshape hchain
    rw [convert_bio_tags_to_wordpieces]
    simp only [List.length_cons, List.length_append, List.length_nil]
    omega
  · constructor
    · intro h hh
      have hO : h = Otag := by
        have hhd : (convert_bio_tags_to_wordpieces tags offsets).head? = some Otag := rfl
        rw [hhd] at hh
        exact (Option.mem_some_iff.mp hh).symm
      rw [hO]
      decide
    · rw [convert_bio_tags_to_wordpieces, cbtwAux_eq_claimProjection tags offsets 0 hshape hchain]
      refine claimProjection_chain' tags offsets Otag 0 hshape hchain ?_
      cases tags with
      | nil => exact List.chain'_singleton _
      | cons t ts =>
        refine List.Chain'.cons ?_ hwf.2
        intro hI
        exact absurd hI (hwf.1 t rfl)

/-- **C6** witness at a concrete well-formed input. -/
theorem claimC6_witness :
    (convert_bio_tags_to_wordpieces ["B-ARG1".data, "I-ARG1".data, "O".data] [2, 4, 5]).length
      = ([2, 4, 5] : List Nat).getLastD 0 + 2 ∧
    wfBio (convert_bio_tags_to_wordpieces ["B-ARG1".data, "I-ARG1".data, "O".data] [2, 4, 5]) :=
  claimC6_wellformed_projection ["B-ARG1".data, "I-ARG1".data, "O".data] [2, 4, 5]
    (by decide) (by decide)
    (by
      refine ⟨by decide, ?_⟩
      refine List.Chain'.cons ?_ (List.Chain'.cons ?_ (List.chain'_singleton _)) <;> decide)
    (by simp [List.chain_cons])

/-! ### C7: `convert_bio_tags_to_conll_format` -/

/-- An in-range `getD` hits an element of the list. -/
theorem getD_mem : ∀ {l : List Str} {i : Nat}, i < l.length → l.getD i [] ∈ l := by
  intro l
  induction l with
  | nil => intro i hi; simp at hi
  | cons a l ih =>
    intro i hi
    cases i with
    | zero => simp
    | succ i =>
      rw [List.getD_cons_succ]
      exact List.mem_cons_of_mem _ (ih (by simpa using hi))

/-- A `ConllShaped` tag is `'O'` or a character, a dash, and a non-empty
label portion. -/
theorem ConllShaped_cases {tag : Str} (h : ConllShaped tag) :
    tag = Otag ∨ ∃ c l, tag = c :: '-' :: l ∧ l ≠ [] := by
  rcases h with h | ⟨h3, hget⟩
  · exact Or.inl h
  · right
    cases tag with
    | nil => simp at h3
    | cons a rest =>
      cases rest with
      | nil => simp at h3
      | cons b rest2 =>
        have hb : b = '-' := by simpa using hget
        refine ⟨a, rest2, by rw [hb], ?_⟩
        intro hnil
        rw [hnil] at h3
        simp at h3

/-- For shaped tags, the comparison after a 1-character strip (what the
code does) agrees with the comparison after the 2-character prefix (what
the claim says). -/
theorem dropCompare {c : Char} {l : Str} (hl : l ≠ []) {y : Str} (hy : ConllShaped y) :
    ((c :: '-' :: l).drop 1 = y.drop 1) ↔ ((c :: '-' :: l).drop 2 = y.drop 2) := by
  rcases ConllShaped_cases hy with rfl | ⟨d, m, rfl, -⟩
  · constructor
    · intro h
      exact absurd h (by simp [Otag])
    · intro h
      rw [show (c :: '-' :: l).drop 2 = l from rfl, show Otag.drop 2 = [] from rfl] at h
      exact absurd h hl
  · constructor
    · intro h
      simpa using h
    · intro h
      simpa using h

/-- Mapping through the `Option`-valued map succeeds pointwise. -/
theorem optionMap_eq_map {α β : Type} (f : α → Option β) (g : α → β) (l : List α)
    (h : ∀ x ∈ l, f x = some (g x)) : optionMap f l = some (l.map g) := by
  induction l with
  | nil => rfl
  | cons a l ih =>
    rw [optionMap, h a (by simp), ih (fun x hx => h x (List.mem_cons_of_mem _ hx))]
    rfl

/-- The loop body of `convert_bio_tags_to_conll_format` agrees with the
claim's per-position description on shaped tags. -/
theorem conllOne_eq_claimAt (labels : List Str) (hshape : ∀ t ∈ labels, ConllShaped t)
    (i : Nat) (hi : i < labels.length) :
    conllOne labels labels.length i = some (conllClaimAt labels i) := by
  have hlab : ConllShaped (labels.getD i []) := hshape _ (getD_mem hi)
  rcases ConllShaped_cases hlab with hO | ⟨c, l, hcl, hl⟩
  · simp only [conllOne, conllClaimAt]
    rw [if_pos hO, if_pos hO]
  · have hOne : (c :: '-' :: l) ≠ Otag := by simp [Otag]
    simp only [conllOne, conllClaimAt]
    rw [hcl, if_neg hOne, if_neg hOne]
    simp only [charAt0, List.drop_succ_cons, List.drop_zero]
    -- start-of-span tests agree
    have hS : (c = 'B' ∨ i = 0 ∨ ('-' :: l) ≠ (labels.getD (i - 1) []).drop 1)
        ↔ (some c = some 'B' ∨ i = 0 ∨ l ≠ (labels.getD (i - 1) []).drop 2) := by
      by_cases hi0 : i = 0
      · exact iff_of_true (Or.inr (Or.inl hi0)) (Or.inr (Or.inl hi0))
      · have hprev : ConllShaped (labels.getD (i - 1) []) := hshape _ (getD_mem (by omega))
        have hdc := not_congr (@dropCompare c l hl (labels.getD (i - 1) []) hprev)
        rw [show ((c :: '-' :: l).drop 1) = '-' :: l from rfl,
          show ((c :: '-' :: l).drop 2) = l from rfl] at hdc
        exact or_congr (by simp) (or_congr Iff.rfl hdc)
    by_cases hS1 : c = 'B' ∨ i = 0 ∨ ('-' :: l) ≠ (labels.getD (i - 1) []).drop 1
    case pos =>
      rw [if_pos hS1, if_pos (hS.mp hS1)]
      by_cases hiL : i = labels.length - 1
      · rw [if_pos hiL, if_pos (Or.inl hiL)]
      · rw [if_neg hiL]
        have hnext : ConllShaped (labels.getD (i + 1) []) := hshape _ (getD_mem (by omega))
        rcases ConllShaped_cases hnext with hnO | ⟨d, m, hdm, hm⟩
        · rw [hnO]
          simp only [Otag, charAt0, List.drop_succ_cons, List.drop_zero, List.drop_nil]
          rw [if_pos (Or.inr (by simp)),
            if_pos (Or.inr (Or.inr (by simpa using Ne.symm hl)))]
        · rw [hdm]
          simp only [charAt0, List.drop_succ_cons, List.drop_zero]
          by_cases hd : d = 'B'
          · rw [if_pos (Or.inl hd), if_pos (Or.inr (Or.inl (by rw [hd])))]
          · by_cases hlm : l = m
            · rw [if_neg (by simp [hd, hlm]), if_neg (by simp [hiL, hd, hlm])]
            · rw [if_pos (Or.inr (by simp [hlm])),
                if_pos (Or.inr (Or.inr (fun h => hlm h.symm)))]
    case neg =>
      rw [if_neg hS1, if_neg (fun h => hS1 (hS.mpr h))]
      by_cases hiL : i = labels.length - 1
      · rw [if_pos hiL, if_pos (Or.inl hiL)]
      · rw [if_neg hiL]
        have hnext : ConllShaped (labels.getD (i + 1) []) := hshape _ (getD_mem (by omega))
        rcases ConllShaped_cases hnext with hnO | ⟨d, m, hdm, hm⟩
        · rw [hnO]
          simp only [Otag, charAt0, List.drop_succ_cons, List.drop_zero, List.drop_nil]
          rw [if_pos (Or.inr (by simp)),
            if_pos (Or.inr (Or.inr (by simpa using Ne.symm hl)))]
        · rw [hdm]
          simp only [charAt0, List.drop_succ_cons, List.drop_zero]
          by_cases hd : d = 'B'
          · rw [if_pos (Or.inl hd), if_pos (Or.inr (Or.inl (by rw [hd])))]
          · by_cases hlm : l = m
            · rw [if_neg (by simp [hd, hlm]), if_neg (by simp [hiL, hd, hlm])]
            · rw [if_pos (Or.inr (by simp [hlm])),
                if_pos (Or.inr (Or.inr (fun h => hlm h.symm)))]

/-- **C7** counterexample: on the (ill-formed) tag sequence
`['XAQ', 'XBQ']` the code compares `label[1:]` (everything after one
character), not the label portion after the 2-character prefix as the
claim states: the code yields `['(Q*)', '(Q*)']` while the claim's
formula yields `['(Q*', '*)']`. -/
theorem claimC7_counterexample :
    convert_bio_tags_to_conll_format ["XAQ".data, "XBQ".data]
      = some ["(Q*)".data, "(Q*)".data] ∧
    conllClaim ["XAQ".data, "XBQ".data] = ["(Q*".data, "*)".data] ∧
    convert_bio_tags_to_conll_format ["XAQ".data, "XBQ".data]
      ≠ some (conllClaim ["XAQ".data, "XBQ".data]) := by
  decide

/-- **C7** amended: restricted to tag sequences in which every tag is
`'O'` or has a 2-character prefix `<char>-` followed by a non-empty label
(in particular all well-formed `B-`/`I-` tag sequences),
`convert_bio_tags_to_conll_format` maps `'O'` to `'*'` and any other tag
to `'*'` prefixed by `'(' + tags[i][2:]` exactly when the claim's
start-of-span test holds and suffixed by `')'` exactly when the claim's
end-of-span test holds (on this domain the code's 1-character-strip
comparisons agree with the claim's 2-character-prefix comparisons). -/
theorem claimC7_amended (tags : List Str) (hshape : ∀ t ∈ tags, ConllShaped t) :
    convert_bio_tags_to_conll_format tags = some (conllClaim tags) := by
  rw [convert_bio_tags_to_conll_format, conllClaim]
  exact optionMap_eq_map _ _ _
    (fun i hi => conllOne_eq_claimAt tags hshape i (List.mem_range.mp hi))

/-- **C7** amended, witnessed on the claim's singleton example
`['B-ARG0']` (whose code output is `['(ARG0*)']`). -/
theorem claimC7_witness :
    convert_bio_tags_to_conll_format ["B-ARG0".data] = some (conllClaim ["B-ARG0".data]) ∧
    convert_bio_tags_to_conll_format ["B-ARG0".data] = some ["(ARG0*)".data] :=
  ⟨claimC7_amended ["B-ARG0".data] (by decide), by decide⟩

end BabyBertSRL
